import Mathlib

/-!
Verification development for the rmcp tool-discovery engine.

The definitions below are a shallow embedding of the TypeScript sources:
src/tool-discovery.ts, src/path-resolver.ts, src/multi-source-discovery.ts
and the data model in src/types.ts.  Dynamic JavaScript values are modelled
by the inductive JValue; the filesystem and process environment are passed
explicitly (SysEnv, DirState); fallible code returns Except or Option.
Paths follow the POSIX convention (separator "/"), matching the path
module functions the code calls on a POSIX host.
-/

namespace Rmcp

/-- Model of an untyped JavaScript value as seen by the discovery code:
null, undefined, booleans, numbers, strings, functions (identified by an
opaque id) and plain objects (ordered field lists, first binding wins on
lookup, as for JS object property access). -/
inductive JValue where
  | undefVal
  | jnull
  | jbool (b : Bool)
  | jnum (n : Int)
  | jstr (s : String)
  | jfn (id : Nat)
  | jobj (fields : List (String × JValue))

/-- First-match field lookup in an object's field list. -/
def lookupField : List (String × JValue) → String → Option JValue
  | [], _ => none
  | (k, v) :: rest, key => if k = key then some v else lookupField rest key

/-- JS property access obj.key: undefined when absent or when the value is
not an object. -/
def getField (v : JValue) (key : String) : JValue :=
  match v with
  | .jobj fields => (lookupField fields key).getD .undefVal
  | _ => .undefVal

/-- JS loose equality against null (v == null): true for null and undefined. -/
def isNullish : JValue → Bool
  | .undefVal => true
  | .jnull => true
  | _ => false

/-- ToolSource from src/types.ts: the two discovery roots.
TS names: the string literals global and local. -/
inductive ToolSource where
  | globalSource
  | localSource
deriving DecidableEq

/-- DiscoveredTool from src/types.ts: the raw loaded tool value plus
provenance metadata. -/
structure DiscoveredTool where
  tool : JValue
  source : ToolSource
  sourcePath : String
  filename : String

/-- The summary record of DiscoveryResults from src/types.ts.
TS field names: total, global, local, conflicts (global and local are
renamed globalCount and localCount here because local is a Lean keyword). -/
structure DiscoverySummary where
  total : Nat
  globalCount : Nat
  localCount : Nat
  conflicts : List String

/-- DiscoveryResults from src/types.ts. -/
structure DiscoveryResults where
  tools : List DiscoveredTool
  summary : DiscoverySummary

/-! ### ASCII string model of the JS string operations the code uses -/

/-- ASCII case folding of one character (code points 65 to 90 shift to
lower case), the fragment of JS String.prototype.toLowerCase the engine
relies on. -/
def lowerChar (c : Char) : Char :=
  if 65 ≤ c.toNat ∧ c.toNat ≤ 90 then Char.ofNat (c.toNat + 32) else c

/-- Model of JS String.prototype.toLowerCase restricted to ASCII input. -/
def jsToLower (s : String) : String := ⟨s.data.map lowerChar⟩

/-- Model of JS String.prototype.startsWith. -/
def jsStartsWith (s pre : String) : Bool := pre.data.isPrefixOf s.data

/-- Model of JS String.prototype.endsWith. -/
def jsEndsWith (s suffix : String) : Bool := suffix.data.isSuffixOf s.data

/-- Lexicographic comparison of character lists by code point: the JS
less-than on strings (code-unit order, which agrees with code-point order
on the text involved here). -/
def ltChars : List Char → List Char → Bool
  | [], [] => false
  | [], _ :: _ => true
  | _ :: _, [] => false
  | a :: as, b :: bs => if a < b then true else if b < a then false else ltChars as bs

/-- Model of the JS strict less-than on strings. -/
def jsLT (a b : String) : Bool := ltChars a.data b.data

/-- Model of the JS at-most on strings (the order the default
Array.prototype.sort comparator realizes). -/
def jsLE (a b : String) : Bool := !(jsLT b a)

/-- Case rank of a character for the tertiary collation level: lowercase
(and every non-uppercase character) before uppercase. -/
def rankChar (c : Char) : Char :=
  if 65 ≤ c.toNat ∧ c.toNat ≤ 90 then 'u' else 'l'

/-- The per-character case ranks of a string, packed as a string so that
the library order on String gives their lexicographic comparison. -/
def rankStr (s : String) : String := ⟨s.data.map rankChar⟩

/-- Model of JS String.prototype.localeCompare under the default (root)
locale, restricted to ASCII text: the primary level compares the
case-folded strings; on primary ties the case difference decides, with
lowercase preceding uppercase. -/
def localeCompare (a b : String) : Int :=
  if jsLT (jsToLower a) (jsToLower b) then -1
  else if jsLT (jsToLower b) (jsToLower a) then 1
  else if jsLT (rankStr a) (rankStr b) then -1
  else if jsLT (rankStr b) (rankStr a) then 1
  else 0

/-! ### src/tool-discovery.ts -/

/-- Outcome of the dynamic import of one candidate file: the load either
throws (parse or runtime error) or produces a module value whose field
named default is the default export. -/
inductive LoadOutcome where
  | throws
  | loads (moduleValue : JValue)

/-- One directory entry together with what dynamically loading it yields. -/
structure FileEntry where
  filename : String
  outcome : LoadOutcome

/-- State of the scan target on disk. -/
inductive DirState where
  | absent
  | notDirectory
  | directory (files : List FileEntry)

/-- ToolDiscovery.isToolFile: the fixed allow-list of loadable extensions. -/
def isToolFile (filename : String) : Bool :=
  jsEndsWith filename ".js" || jsEndsWith filename ".ts" || jsEndsWith filename ".mjs"

/-- ToolDiscovery.isValidTool: the capability contract.  Mirrors the TS
checks: the value is a non-null object, its name field is a string, its
run field is a function, and its inputSchema field is a non-null object
(typeof x === object and x !== null admits exactly plain objects here). -/
def isValidTool (tool : JValue) : Bool :=
  match tool with
  | .jobj _ =>
      (match getField tool "name" with | .jstr _ => true | _ => false) &&
      (match getField tool "run" with | .jfn _ => true | _ => false) &&
      (match getField tool "inputSchema" with | .jobj _ => true | _ => false)
  | _ => false

/-- ToolDiscovery.loadToolWithMetadata for one file: every failure path
(import throws, default export loosely equal to null, contract violation)
is caught in the TS code and surfaces as null, modelled by none. -/
def loadToolWithMetadata (toolsPath : String) (source : ToolSource)
    (file : FileEntry) : Option DiscoveredTool :=
  match file.outcome with
  | .throws => none
  | .loads moduleValue =>
      let tool := getField moduleValue "default"
      if isNullish tool then none
      else if !(isValidTool tool) then none
      else some { tool := tool, source := source,
                  sourcePath := toolsPath, filename := file.filename }

/-- The empty result the scanner returns when the target is missing or not
a directory (in the TS code the conditional source === global ? 0 : 0 is 0
in both branches). -/
def emptyResults : DiscoveryResults :=
  { tools := [],
    summary := { total := 0, globalCount := 0, localCount := 0, conflicts := [] } }

/-- ToolDiscovery.discoverToolsWithMetadata: degrade to the empty result
when the path is absent or not a directory; otherwise filter the listing
by extension and load each candidate, skipping failures per file.
toolsPath is the directory path (already made absolute by the class
constructor). -/
def discoverToolsWithMetadata (toolsPath : String) (source : ToolSource)
    (st : DirState) : DiscoveryResults :=
  match st with
  | .absent => emptyResults
  | .notDirectory => emptyResults
  | .directory files =>
      let discoveredTools :=
        (files.filter (fun f => isToolFile f.filename)).filterMap
          (loadToolWithMetadata toolsPath source)
      { tools := discoveredTools,
        summary := {
          total := discoveredTools.length,
          globalCount := match source with
            | .globalSource => discoveredTools.length
            | .localSource => 0,
          localCount := match source with
            | .localSource => discoveredTools.length
            | .globalSource => 0,
          conflicts := [] } }

/-! ### POSIX path model (the path module functions the code calls) -/

/-- Split a character list at every slash; adjacent slashes yield empty
segments, as String.prototype.split does. -/
def splitOnSlash : List Char → List (List Char)
  | [] => [[]]
  | c :: rest =>
      let r := splitOnSlash rest
      if c = '/' then [] :: r
      else
        match r with
        | [] => [[c]]
        | s :: ss => (c :: s) :: ss

/-- Whether a character list denotes an absolute POSIX path. -/
def isAbsChars : List Char → Bool
  | '/' :: _ => true
  | _ => false

/-- Segment normalization of the path module: drop empty and dot segments,
let a dot-dot segment pop the previous real segment (at the root of an
absolute path it vanishes; in a relative path unmatched dot-dot segments
accumulate).  The accumulator holds processed segments in reverse. -/
def normSegs (isAbs : Bool) : List (List Char) → List (List Char) → List (List Char)
  | acc, [] => acc.reverse
  | acc, seg :: rest =>
      if seg = [] ∨ seg = ['.'] then normSegs isAbs acc rest
      else if seg = ['.', '.'] then
        match acc with
        | [] => if isAbs then normSegs isAbs [] rest else normSegs isAbs [seg] rest
        | top :: below =>
            if top = ['.', '.'] then normSegs isAbs (seg :: acc) rest
            else normSegs isAbs below rest
      else normSegs isAbs (seg :: acc) rest

/-- Join segments with single slashes. -/
def joinSegs : List (List Char) → List Char
  | [] => []
  | [s] => s
  | s :: rest => s ++ '/' :: joinSegs rest

/-- Model of path.posix.normalize on character lists. -/
def normalizeChars (cs : List Char) : List Char :=
  let abs := isAbsChars cs
  let segs := normSegs abs [] (splitOnSlash cs)
  if abs then '/' :: joinSegs segs
  else
    match joinSegs segs with
    | [] => ['.']
    | r => r

/-- Model of path.posix.normalize. -/
def normalizePosix (p : String) : String := ⟨normalizeChars p.data⟩

/-- Model of path.posix.isAbsolute. -/
def isAbsolute (p : String) : Bool := isAbsChars p.data

/-- Model of path.resolve with one argument: prefix the current working
directory when the input is relative, then normalize. -/
def pathResolve (cwd p : String) : String :=
  if isAbsolute p then normalizePosix p
  else normalizePosix ⟨cwd.data ++ '/' :: p.data⟩

/-- Model of path.join with two arguments. -/
def pathJoin (a b : String) : String := normalizePosix ⟨a.data ++ '/' :: b.data⟩

/-! ### src/path-resolver.ts -/

/-- FORBIDDEN_PATHS from src/path-resolver.ts, verbatim. -/
def FORBIDDEN_PATHS : List String :=
  ["/", "/bin", "/usr", "/usr/bin", "/usr/local", "/usr/local/bin",
   "/etc", "/var", "/tmp", "/System", "/Library",
   "C:\\", "C:\\Windows", "C:\\Program Files", "C:\\Program Files (x86)"]

/-- The ambient process state the resolver reads: working directory, home
directory, the RMCP_GLOBAL_TOOLS_PATH environment variable (none when
unset) and the existsSync view of the filesystem. -/
structure SysEnv where
  cwd : String
  home : String
  envGlobalToolsPath : Option String
  fsExists : String → Bool

/-- GlobalPathOptions from src/path-resolver.ts (validate defaults to true
at the destructuring site). -/
structure GlobalPathOptions where
  cliPath : Option String := none
  validate : Bool := true

/-- The source tags of ResolvedGlobalPath: the TS string literals
cli-flag, env-var and default. -/
inductive PathSource where
  | cliFlag
  | envVar
  | defaultSource
deriving DecidableEq

/-- ResolvedGlobalPath from src/path-resolver.ts.  The TS field exists is
renamed pathExists (exists is a Lean tactic name). -/
structure ResolvedGlobalPath where
  path : String
  source : PathSource
  pathExists : Bool
deriving DecidableEq

/-- The two throw sites of the resolver, matching the spec's taxonomy:
configError for a non-absolute path, securityError for a forbidden one. -/
inductive PathError where
  | configError
  | securityError
deriving DecidableEq

/-- expandHomePath from src/path-resolver.ts: expand a leading tilde
(the slice from index 1 of the lone tilde is empty, and the TS fallback
keeps it empty). -/
def expandHomePath (home inputPath : String) : String :=
  if jsStartsWith inputPath "~/" || inputPath = "~" then
    pathJoin home ⟨inputPath.data.drop 1⟩
  else inputPath

/-- getDefaultGlobalToolsPath from src/path-resolver.ts. -/
def getDefaultGlobalToolsPath (home : String) : String :=
  pathJoin home ".rmcp-tools"

/-- validateGlobalPath from src/path-resolver.ts: reject non-absolute
paths, then compare the case-folded resolved path against each case-folded
resolved deny-list entry, by equality or by extension with the separator.
The home-directory check in the TS code only prints a warning and is
omitted. -/
def validateGlobalPath (env : SysEnv) (globalPath : String) : Except PathError Unit :=
  if !(isAbsolute globalPath) then .error .configError
  else
    let normalizedPath := jsToLower (pathResolve env.cwd globalPath)
    if FORBIDDEN_PATHS.any (fun forbidden =>
        let normalizedForbidden := jsToLower (pathResolve env.cwd forbidden)
        (normalizedPath == normalizedForbidden) ||
          jsStartsWith normalizedPath (normalizedForbidden ++ "/")) then
      .error .securityError
    else .ok ()

/-- The env-var-or-default tail of the precedence chain: the TS truthiness
test on process.env means a variable set to the empty string falls through
to the default. -/
def envOrDefault (env : SysEnv) : String × PathSource :=
  match env.envGlobalToolsPath with
  | some v =>
      if v ≠ "" then (expandHomePath env.home v, .envVar)
      else (getDefaultGlobalToolsPath env.home, .defaultSource)
  | none => (getDefaultGlobalToolsPath env.home, .defaultSource)

/-- The path-and-source pair the precedence chain of
resolveGlobalToolsPath selects before absolutization: a truthy (present,
non-empty) CLI path wins, then the environment chain. -/
def resolvePre (env : SysEnv) (options : GlobalPathOptions) : String × PathSource :=
  match options.cliPath with
  | some cliPath =>
      if cliPath ≠ "" then (expandHomePath env.home cliPath, .cliFlag)
      else envOrDefault env
  | none => envOrDefault env

/-- resolveGlobalToolsPath from src/path-resolver.ts: precedence CLI flag
over environment variable over default, make absolute, validate when
requested, report existence. -/
def resolveGlobalToolsPath (env : SysEnv) (options : GlobalPathOptions) :
    Except PathError ResolvedGlobalPath :=
  let pre := resolvePre env options
  let resolvedPath := pathResolve env.cwd pre.1
  if options.validate then
    match validateGlobalPath env resolvedPath with
    | .error e => .error e
    | .ok _ => .ok { path := resolvedPath, source := pre.2,
                     pathExists := env.fsExists resolvedPath }
  else .ok { path := resolvedPath, source := pre.2,
             pathExists := env.fsExists resolvedPath }

/-! ### src/multi-source-discovery.ts, MultiSourceToolDiscovery.mergeResults -/

/-- The name the merge reads from an entry (tool.name); on a value that
satisfies isValidTool this is the string stored in the name field. -/
def toolName (t : DiscoveredTool) : String :=
  match getField t.tool "name" with
  | .jstr s => s
  | _ => ""

/-- The case-insensitive merge key: tool.name.toLowerCase(). -/
def toolKey (t : DiscoveredTool) : String := jsToLower (toolName t)

/-- Insertion-ordered association list modelling the JS Map: setting an
existing key updates the value in place, a new key is appended. -/
def mapSet (m : List (String × DiscoveredTool)) (key : String)
    (value : DiscoveredTool) : List (String × DiscoveredTool) :=
  match m with
  | [] => [(key, value)]
  | (k, v) :: rest =>
      if k = key then (k, value) :: rest else (k, v) :: mapSet rest key value

/-- Map.get / Map.has of the JS Map. -/
def mapLookup (m : List (String × DiscoveredTool)) (key : String) :
    Option DiscoveredTool :=
  match m with
  | [] => none
  | (k, v) :: rest => if k = key then some v else mapLookup rest key

/-- Array.from(map.values()): the values in insertion order of their keys. -/
def mapValues (m : List (String × DiscoveredTool)) : List DiscoveredTool :=
  m.map Prod.snd

/-- The first loop of mergeResults: seed the map from every global entry. -/
def seedGlobals (m : List (String × DiscoveredTool)) :
    List DiscoveredTool → List (String × DiscoveredTool)
  | [] => m
  | t :: ts => seedGlobals (mapSet m (toolKey t) t) ts

/-- The second loop of mergeResults: walk the local entries in order,
record a conflict when the entry currently held under the key came from
the global source, and let the local entry take the key unconditionally. -/
def processLocals (m : List (String × DiscoveredTool)) (conflicts : List String) :
    List DiscoveredTool → List (String × DiscoveredTool) × List String
  | [] => (m, conflicts)
  | t :: ts =>
      let key := toolKey t
      let conflicts' :=
        match mapLookup m key with
        | some existing =>
            if existing.source = .globalSource then conflicts ++ [toolName t]
            else conflicts
        | none => conflicts
      processLocals (mapSet m key t) conflicts' ts

/-- The sort comparator of mergeResults: globals before locals, then
tool.name.localeCompare. -/
def toolCmp (a b : DiscoveredTool) : Int :=
  if a.source ≠ b.source then (if a.source = .globalSource then -1 else 1)
  else localeCompare (toolName a) (toolName b)

/-- The non-strict order induced by the comparator.  Distinct entries of
the merged map never compare equal (their lower-cased names differ), so
every correct sort of the map values, in particular the stable JS
Array.prototype.sort, agrees with insertion sort under this order. -/
def toolLE (a b : DiscoveredTool) : Prop := toolCmp a b ≤ 0

instance : DecidableRel toolLE :=
  fun a b => inferInstanceAs (Decidable (toolCmp a b ≤ 0))

/-- Whether an entry carries the global source tag, as a boolean (used by
the summary filters). -/
def isGlobalEntry (t : DiscoveredTool) : Bool :=
  match t.source with
  | .globalSource => true
  | .localSource => false

/-- Whether an entry carries the local source tag. -/
def isLocalEntry (t : DiscoveredTool) : Bool :=
  match t.source with
  | .globalSource => false
  | .localSource => true

/-- MultiSourceToolDiscovery.mergeResults: seed from globals, fold the
locals with conflict tracking, sort the surviving values, recompute the
summary, and sort the conflict names (Array.prototype.sort with no
comparator is lexicographic on strings). -/
def mergeResults (globalResults localResults : DiscoveryResults) : DiscoveryResults :=
  let toolMap := seedGlobals [] globalResults.tools
  let step := processLocals toolMap [] localResults.tools
  let mergedTools := (mapValues step.1).insertionSort toolLE
  { tools := mergedTools,
    summary := {
      total := mergedTools.length,
      globalCount := (mergedTools.filter (fun t => isGlobalEntry t)).length,
      localCount := (mergedTools.filter (fun t => isLocalEntry t)).length,
      conflicts := step.2.insertionSort (fun a b => jsLE a b = true) } }

/-! ### Orders and predicates used to state the claims -/

/-- The order the spec claims for merged entries: globals before locals,
and within one source the case-sensitive lexicographic (code-point) order
on names given by the library order on String. -/
def claimSortOrder (a b : DiscoveredTool) : Prop :=
  (a.source = .globalSource ∧ b.source = .localSource) ∨
  (a.source = b.source ∧ jsLE (toolName a) (toolName b) = true)

/-- The order the merged entries actually carry: globals before locals,
and within one source the locale order of localeCompare. -/
def mergedSortOrder (a b : DiscoveredTool) : Prop :=
  (a.source = .globalSource ∧ b.source = .localSource) ∨
  (a.source = b.source ∧ localeCompare (toolName a) (toolName b) ≤ 0)

/-- The key of a local entry is held under a global sourceKind in the map
seeded from the global result. -/
def heldGlobalSeed (g : DiscoveryResults) (key : String) : Prop :=
  ∃ e, mapLookup (seedGlobals [] g.tools) key = some e ∧ e.source = .globalSource

/-- Nesting of paths as the spec's deny-list sentence reads: strictly
beneath an entry means a proper extension of it across a separator. -/
def claimNestedUnder (p f : String) : Prop :=
  p ≠ f ∧ jsStartsWith p (if jsEndsWith f "/" then f else f ++ "/") = true

/-- A path equals a deny-list entry or is nested strictly beneath one,
read literally as the claim states it. -/
def underClaimDenyList (p : String) : Prop :=
  ∃ f ∈ FORBIDDEN_PATHS, p = f ∨ claimNestedUnder p f

/-- The comparison validateGlobalPath actually performs, as a predicate on
the resolved path: case-folded equality with a case-folded resolved
deny-list entry, or strict nesting beneath such an entry other than the
filesystem root (nesting beneath the root alone never matches, because a
normalized path never contains a doubled separator). -/
def onCodeDenyList (env : SysEnv) (resolvedPath : String) : Prop :=
  ∃ f ∈ FORBIDDEN_PATHS,
    jsToLower resolvedPath = jsToLower (pathResolve env.cwd f) ∨
    (jsToLower (pathResolve env.cwd f) ≠ "/" ∧
      jsStartsWith (jsToLower resolvedPath) (jsToLower (pathResolve env.cwd f) ++ "/") = true)

/-- Claim C1 read literally: for every pair of inputs and every position i
of the local list, if the lower-cased name of the i-th local entry is a
key held under a global sourceKind when that entry is processed (seeded
global key, no earlier local entry with the same key), the merged output
has exactly one entry for that key, namely this local entry, and the
conflict list holds its original-case name; otherwise its name produces no
conflict record. -/
def claimC1Prop : Prop :=
  ∀ (g l : DiscoveryResults) (i : Nat) (hi : i < l.tools.length),
    (heldGlobalSeed g (toolKey (l.tools.get ⟨i, hi⟩)) ∧
        (∀ u ∈ l.tools.take i, toolKey u ≠ toolKey (l.tools.get ⟨i, hi⟩)) →
      (mergeResults g l).tools.filter
          (fun u => toolKey u == toolKey (l.tools.get ⟨i, hi⟩)) = [l.tools.get ⟨i, hi⟩] ∧
        toolName (l.tools.get ⟨i, hi⟩) ∈ (mergeResults g l).summary.conflicts) ∧
    (¬(heldGlobalSeed g (toolKey (l.tools.get ⟨i, hi⟩)) ∧
        (∀ u ∈ l.tools.take i, toolKey u ≠ toolKey (l.tools.get ⟨i, hi⟩))) →
      toolName (l.tools.get ⟨i, hi⟩) ∉ (mergeResults g l).summary.conflicts)

/-- Claim C2 read literally: whenever resolution returns a result, a
present non-empty explicit override wins; otherwise a set environment
value (of any content) wins; otherwise the default applies. -/
def claimC2Prop : Prop :=
  ∀ (env : SysEnv) (options : GlobalPathOptions) (r : ResolvedGlobalPath),
    resolveGlobalToolsPath env options = .ok r →
    (∀ c, options.cliPath = some c → c ≠ "" →
        r.source = .cliFlag ∧ r.path = pathResolve env.cwd (expandHomePath env.home c)) ∧
    ((options.cliPath = none ∨ options.cliPath = some "") →
      (∀ v, env.envGlobalToolsPath = some v →
        r.source = .envVar ∧ r.path = pathResolve env.cwd (expandHomePath env.home v)) ∧
      (env.envGlobalToolsPath = none →
        r.source = .defaultSource ∧
          r.path = pathResolve env.cwd (getDefaultGlobalToolsPath env.home)))

/-- Claim C3 read literally against validateGlobalPath: a resolved path on
or strictly beneath a deny-list entry is rejected with SecurityError, and
a resolved path neither on nor beneath the deny-list is never so
rejected. -/
def claimC3Prop : Prop :=
  ∀ (env : SysEnv) (p : String), isAbsolute p = true →
    (underClaimDenyList (pathResolve env.cwd p) →
        validateGlobalPath env p = .error .securityError) ∧
    (¬ underClaimDenyList (pathResolve env.cwd p) →
        validateGlobalPath env p ≠ .error .securityError)

/-- Claim C6 read literally: merged entries sorted with globals first and
case-sensitive lexicographic names within a source, conflict names sorted
lexicographically. -/
def claimC6Prop : Prop :=
  ∀ g l : DiscoveryResults,
    ((mergeResults g l).tools).Sorted claimSortOrder ∧
    ((mergeResults g l).summary.conflicts).Sorted (fun a b => jsLE a b = true)

/-- Claim C7 read literally: merging the empty result with a local-only
result returns its entry list unchanged with no conflicts, and
symmetrically for a global-only result. -/
def claimC7Prop : Prop :=
  (∀ L : DiscoveryResults, (∀ t ∈ L.tools, t.source = .localSource) →
    (mergeResults emptyResults L).tools = L.tools ∧
    (mergeResults emptyResults L).summary.conflicts = []) ∧
  (∀ G : DiscoveryResults, (∀ t ∈ G.tools, t.source = .globalSource) →
    (mergeResults G emptyResults).tools = G.tools ∧
    (mergeResults G emptyResults).summary.conflicts = [])

/-- Claim C8 read literally: the scanner never emits an entry whose name
is the empty string. -/
def claimC8Prop : Prop :=
  ∀ (toolsPath : String) (source : ToolSource) (st : DirState),
    ∀ t ∈ (discoverToolsWithMetadata toolsPath source st).tools, toolName t ≠ ""

/-! ### Proof infrastructure for the merge lemmas -/

/-- Keys of the association-list map. -/
def mapKeys (m : List (String × DiscoveredTool)) : List String :=
  m.map Prod.fst

/-- Well-formedness invariant of the merge map: keys are pairwise distinct
and each binding's key is the lower-cased name of its value. -/
def WFMap (m : List (String × DiscoveredTool)) : Prop :=
  (mapKeys m).Nodup ∧ ∀ p ∈ m, p.1 = toolKey p.2

/-- The conflict names contributed by a local list processed against a
given map state (mirrors the recursion of processLocals, used to peel the
conflict accumulator off the fold). -/
def conflictNames (m : List (String × DiscoveredTool)) :
    List DiscoveredTool → List String
  | [] => []
  | t :: ts =>
      (match mapLookup m (toolKey t) with
        | some existing => if existing.source = .globalSource then [toolName t] else []
        | none => []) ++ conflictNames (mapSet m (toolKey t) t) ts

/-- Whether the map holds a global-sourced entry under a key, as a
boolean. -/
def lookupIsGlobal (m : List (String × DiscoveredTool)) (key : String) : Bool :=
  match mapLookup m key with
  | some existing => isGlobalEntry existing
  | none => false

/-! ### Concrete instances used by counterexamples and witnesses -/

/-- A well-formed tool value with the given name. -/
def mkToolValue (name : String) : JValue :=
  .jobj [("name", .jstr name), ("run", .jfn 0), ("inputSchema", .jobj [])]

/-- A discovered entry with the given name, source and filename. -/
def mkEntry (name : String) (source : ToolSource) (fn : String) : DiscoveredTool :=
  { tool := mkToolValue name, source := source, sourcePath := "/p", filename := fn }

/-- Wrap an entry list as a DiscoveryResults value (the summary fields of
merge inputs are never read by mergeResults). -/
def mkResults (ts : List DiscoveredTool) : DiscoveryResults :=
  { tools := ts,
    summary := { total := ts.length, globalCount := 0, localCount := 0, conflicts := [] } }

/-- Global side of the C1 counterexample: one global entry named Build. -/
def gBuildRes : DiscoveryResults := mkResults [mkEntry "Build" .globalSource "g.ts"]

/-- Local side of the C1 counterexample: two local entries whose names
share the lower-cased key build. -/
def lDupRes : DiscoveryResults :=
  mkResults [mkEntry "build" .localSource "l1.ts", mkEntry "BUILD" .localSource "l2.ts"]

/-- Global-only input for the C6 counterexample: names B and a, which the
locale order and the code-point order arrange differently. -/
def gOrderRes : DiscoveryResults :=
  mkResults [mkEntry "B" .globalSource "b.ts", mkEntry "a" .globalSource "a.ts"]

/-- Local-only input for the C7 counterexample: entries out of sorted
order. -/
def lUnsortedRes : DiscoveryResults :=
  mkResults [mkEntry "b" .localSource "b.ts", mkEntry "a" .localSource "a.ts"]

/-- Local-only, key-distinct, sorted input for the C7 witness. -/
def lSortedRes : DiscoveryResults :=
  mkResults [mkEntry "a" .localSource "a.ts", mkEntry "b" .localSource "b.ts"]

/-- A process state with no CLI or environment values and nothing on
disk. -/
def envPlain : SysEnv :=
  { cwd := "/work", home := "/home/u", envGlobalToolsPath := none,
    fsExists := fun _ => false }

/-- The same process state with the environment variable set to the empty
string: set in the POSIX sense, falsy to the TS truthiness test. -/
def envEmptyVar : SysEnv := { envPlain with envGlobalToolsPath := some "" }

/-- The same process state with the environment variable set to /b. -/
def envSetVar : SysEnv := { envPlain with envGlobalToolsPath := some "/b" }

/-- A candidate file whose dynamic load succeeds with a valid tool of the
given name. -/
def goodFile (name fn : String) : FileEntry :=
  { filename := fn, outcome := .loads (.jobj [("default", mkToolValue name)]) }

/-- A candidate file whose dynamic load throws. -/
def badFile (fn : String) : FileEntry :=
  { filename := fn, outcome := .throws }

/-! ### General helper lemmas -/

theorem length_filterMap_of_isSome {α β : Type} (f : α → Option β) :
    ∀ l : List α, (∀ a ∈ l, (f a).isSome) → (l.filterMap f).length = l.length
  | [], _ => rfl
  | a :: l, h => by
      obtain ⟨b, hb⟩ := Option.isSome_iff_exists.1 (h a (List.mem_cons_self a l))
      rw [List.filterMap_cons_some hb, List.length_cons,
        length_filterMap_of_isSome f l (fun x hx => h x (List.mem_cons_of_mem a hx)),
        List.length_cons]

/-! ### C5 -/

/-- C5: scanning a target that is absent or not a directory returns the
empty DiscoveryResult: no entries, total 0, global 0, local 0, empty
conflict list.  The embedding of the scan is a total function, so no
exception escapes it. -/
theorem scan_missing_target_empty (toolsPath : String) (source : ToolSource) :
    ((discoverToolsWithMetadata toolsPath source .absent).tools = [] ∧
      (discoverToolsWithMetadata toolsPath source .absent).summary.total = 0 ∧
      (discoverToolsWithMetadata toolsPath source .absent).summary.globalCount = 0 ∧
      (discoverToolsWithMetadata toolsPath source .absent).summary.localCount = 0 ∧
      (discoverToolsWithMetadata toolsPath source .absent).summary.conflicts = []) ∧
    ((discoverToolsWithMetadata toolsPath source .notDirectory).tools = [] ∧
      (discoverToolsWithMetadata toolsPath source .notDirectory).summary.total = 0 ∧
      (discoverToolsWithMetadata toolsPath source .notDirectory).summary.globalCount = 0 ∧
      (discoverToolsWithMetadata toolsPath source .notDirectory).summary.localCount = 0 ∧
      (discoverToolsWithMetadata toolsPath source .notDirectory).summary.conflicts = []) :=
  ⟨⟨rfl, rfl, rfl, rfl, rfl⟩, ⟨rfl, rfl, rfl, rfl, rfl⟩⟩

/-! ### C10 -/

/-- C10: when the validate option is false the resolver skips safety
validation entirely: for every process state and options it returns a
ResolvedGlobalPath and raises neither SecurityError nor the not-absolute
ConfigError, in particular when the resolved path is deny-listed. -/
theorem resolve_without_validation_total (env : SysEnv) (options : GlobalPathOptions)
    (h : options.validate = false) :
    ∃ r : ResolvedGlobalPath, resolveGlobalToolsPath env options = .ok r := by
  simp only [resolveGlobalToolsPath, h, if_false, Bool.false_eq_true]
  exact ⟨_, rfl⟩

/-- Witness for C10 at a deny-listed explicit override. -/
theorem resolve_without_validation_total_witness :
    ∃ r : ResolvedGlobalPath,
      resolveGlobalToolsPath envPlain { cliPath := some "/bin", validate := false } = .ok r :=
  resolve_without_validation_total envPlain { cliPath := some "/bin", validate := false } rfl

/-! ### C8 -/

/-- C8 as stated fails on the code: isValidTool only checks that the name
field is a string, so a tool whose name is the empty string passes
validation and the scan emits an entry named the empty string. -/
theorem scan_nonempty_name_cex : ¬ claimC8Prop := by
  intro h
  refine h "/p" .localSource (.directory [goodFile "" "e.ts"])
    (mkEntry "" .localSource "e.ts") ?_ rfl
  have htools : (discoverToolsWithMetadata "/p" .localSource
      (.directory [goodFile "" "e.ts"])).tools = [mkEntry "" .localSource "e.ts"] := rfl
  rw [htools]
  exact List.Mem.head _

/-- A value that passes the capability contract stores a string under its
name field. -/
theorem isValidTool_name_string {v : JValue} (h : isValidTool v = true) :
    ∃ s : String, getField v "name" = .jstr s := by
  rcases v with _ | _ | _ | _ | _ | _ | fields
  · exact absurd h (by simp [isValidTool])
  · exact absurd h (by simp [isValidTool])
  · exact absurd h (by simp [isValidTool])
  · exact absurd h (by simp [isValidTool])
  · exact absurd h (by simp [isValidTool])
  · exact absurd h (by simp [isValidTool])
  · simp only [isValidTool, Bool.and_eq_true] at h
    obtain ⟨⟨h1, _⟩, _⟩ := h
    rcases hname : getField (JValue.jobj fields) "name" with _ | _ | _ | _ | s | _ | _
    all_goals rw [hname] at h1
    case jstr => exact ⟨s, rfl⟩
    all_goals simp at h1

/-- Whatever the scan loads from a file is the tool stored in the
resulting entry and satisfies the capability contract. -/
theorem load_some_valid {toolsPath : String} {source : ToolSource} {f : FileEntry}
    {t : DiscoveredTool} (h : loadToolWithMetadata toolsPath source f = some t) :
    isValidTool t.tool = true := by
  unfold loadToolWithMetadata at h
  split at h
  · exact absurd h (by simp)
  · dsimp only [] at h
    split at h
    · exact absurd h (by simp)
    · split at h
      · exact absurd h (by simp)
      · rename_i hvalid
        cases Option.some.inj h
        simpa using hvalid

/-- C8 amended: every entry the scan emits carries a tool whose name field
is a JS string, and toolName returns exactly that string; the string may
be empty, since validation does not require non-emptiness. -/
theorem scan_name_is_string (toolsPath : String) (source : ToolSource) (st : DirState)
    (t : DiscoveredTool) (ht : t ∈ (discoverToolsWithMetadata toolsPath source st).tools) :
    ∃ s : String, getField t.tool "name" = .jstr s ∧ toolName t = s := by
  cases st with
  | absent => simp [discoverToolsWithMetadata, emptyResults] at ht
  | notDirectory => simp [discoverToolsWithMetadata, emptyResults] at ht
  | directory files =>
      obtain ⟨f, _, hload⟩ :=
        List.mem_filterMap.1 (ht : t ∈ List.filterMap _ (List.filter _ files))
      obtain ⟨s, hname⟩ := isValidTool_name_string (load_some_valid hload)
      exact ⟨s, hname, by simp [toolName, hname]⟩

/-- Witness for the amended C8 at a one-file directory. -/
theorem scan_name_is_string_witness :
    ∃ s : String,
      getField (mkEntry "alpha" .localSource "a.ts").tool "name" = .jstr s ∧
      toolName (mkEntry "alpha" .localSource "a.ts") = s :=
  scan_name_is_string "/p" .localSource (.directory [goodFile "alpha" "a.ts"])
    (mkEntry "alpha" .localSource "a.ts") (by
      have htools : (discoverToolsWithMetadata "/p" .localSource
          (.directory [goodFile "alpha" "a.ts"])).tools =
          [mkEntry "alpha" .localSource "a.ts"] := rfl
      rw [htools]
      exact List.Mem.head _)

/-! ### C4 -/

/-- C4: in a directory of candidate files that all pass the extension
filter, if the files before and after one failing file all load
successfully and that one file's load fails (throw, missing default
export), then the scan returns exactly the entries of the other files, in
order and each unchanged, and the entry count is N minus one.  The
embedding of the scan is total: the per-file failure is absorbed and
nothing is thrown. -/
theorem scan_partial_failure_isolation (toolsPath : String) (source : ToolSource)
    (pre post : List FileEntry) (bad : FileEntry)
    (hfiles : ∀ f ∈ pre ++ bad :: post, isToolFile f.filename = true)
    (hpre : ∀ f ∈ pre, (loadToolWithMetadata toolsPath source f).isSome)
    (hpost : ∀ f ∈ post, (loadToolWithMetadata toolsPath source f).isSome)
    (hbad : loadToolWithMetadata toolsPath source bad = none) :
    (discoverToolsWithMetadata toolsPath source (.directory (pre ++ bad :: post))).tools =
      (pre ++ post).filterMap (loadToolWithMetadata toolsPath source) ∧
    (discoverToolsWithMetadata toolsPath source
        (.directory (pre ++ bad :: post))).tools.length =
      (pre ++ bad :: post).length - 1 := by
  have hfilter : (pre ++ bad :: post).filter (fun f => isToolFile f.filename) =
      pre ++ bad :: post := List.filter_eq_self.mpr hfiles
  have htools : (discoverToolsWithMetadata toolsPath source
      (.directory (pre ++ bad :: post))).tools =
      (pre ++ post).filterMap (loadToolWithMetadata toolsPath source) := by
    show ((pre ++ bad :: post).filter _).filterMap _ = _
    rw [hfilter, List.filterMap_append, List.filterMap_cons_none hbad,
      ← List.filterMap_append]
  refine ⟨htools, ?_⟩
  rw [htools, length_filterMap_of_isSome _ _ (by
    intro f hf
    rcases List.mem_append.1 hf with hf | hf
    · exact hpre f hf
    · exact hpost f hf)]
  simp [List.length_append]

/-- Witness for C4: three candidates, the middle one throwing. -/
theorem scan_partial_failure_isolation_witness :
    (discoverToolsWithMetadata "/p" .localSource
        (.directory [goodFile "a" "a.ts", badFile "b.ts", goodFile "c" "c.ts"])).tools =
      ([goodFile "a" "a.ts", goodFile "c" "c.ts"]).filterMap
        (loadToolWithMetadata "/p" .localSource) ∧
    (discoverToolsWithMetadata "/p" .localSource
        (.directory [goodFile "a" "a.ts", badFile "b.ts", goodFile "c" "c.ts"])).tools.length =
      ([goodFile "a" "a.ts", badFile "b.ts", goodFile "c" "c.ts"]).length - 1 :=
  scan_partial_failure_isolation "/p" .localSource
    [goodFile "a" "a.ts"] [goodFile "c" "c.ts"] (badFile "b.ts")
    (by decide) (by decide) (by decide) rfl

/-! ### C2 -/

/-- Whenever the resolver returns a result, the result is the absolutized
selected path, its source tag, and the existence check. -/
theorem resolve_ok_shape {env : SysEnv} {options : GlobalPathOptions}
    {r : ResolvedGlobalPath} (h : resolveGlobalToolsPath env options = .ok r) :
    r = { path := pathResolve env.cwd (resolvePre env options).1,
          source := (resolvePre env options).2,
          pathExists := env.fsExists (pathResolve env.cwd (resolvePre env options).1) } := by
  unfold resolveGlobalToolsPath at h
  split at h
  · dsimp only [] at h
    split at h
    · exact absurd h (by simp)
    · exact (Option.some.inj (by simpa using h)).symm
  · exact (Option.some.inj (by simpa using h)).symm

/-- The precedence pair under a truthy CLI path. -/
theorem resolvePre_cli {env : SysEnv} {options : GlobalPathOptions} {c : String}
    (hc : options.cliPath = some c) (hne : c ≠ "") :
    resolvePre env options = (expandHomePath env.home c, .cliFlag) := by
  simp only [resolvePre, hc]
  rw [if_pos hne]

/-- The precedence pair when the CLI path is falsy: the environment
chain decides. -/
theorem resolvePre_no_cli {env : SysEnv} {options : GlobalPathOptions}
    (hc : options.cliPath = none ∨ options.cliPath = some "") :
    resolvePre env options = envOrDefault env := by
  rcases hc with hc | hc <;> simp only [resolvePre, hc]
  rw [if_neg (by simp)]

/-- The environment chain under a truthy environment variable. -/
theorem envOrDefault_set {env : SysEnv} {v : String}
    (hv : env.envGlobalToolsPath = some v) (hne : v ≠ "") :
    envOrDefault env = (expandHomePath env.home v, .envVar) := by
  simp only [envOrDefault, hv]
  rw [if_pos hne]

/-- The environment chain under a falsy environment variable. -/
theorem envOrDefault_unset {env : SysEnv}
    (hv : env.envGlobalToolsPath = none ∨ env.envGlobalToolsPath = some "") :
    envOrDefault env = (getDefaultGlobalToolsPath env.home, .defaultSource) := by
  rcases hv with hv | hv <;> simp only [envOrDefault, hv]
  rw [if_neg (by simp)]

/-- C2 as stated fails on the code: with no explicit override and the
environment variable set to the empty string, the claim requires the
environment source, but the TS truthiness test treats the empty value as
unset and the resolver answers with the default source. -/
theorem path_precedence_cex : ¬ claimC2Prop := by
  intro h
  have hres := (h envEmptyVar { cliPath := none, validate := true }
      { path := "/home/u/.rmcp-tools", source := .defaultSource, pathExists := false }
      rfl).2 (Or.inl rfl)
  exact absurd (hres.1 "" rfl).1 (by decide)

/-- C2 amended: for every call that returns a result, precedence picks a
present and non-empty explicit override first (source cli-flag, path the
absolutized home-expanded override), otherwise an environment value that
is set and non-empty (source env-var, path likewise), otherwise the fixed
default under the home directory; an environment variable set to the
empty string is falsy to the TS truthiness test and selects the default. -/
theorem path_precedence_amended (env : SysEnv) (options : GlobalPathOptions)
    (r : ResolvedGlobalPath) (h : resolveGlobalToolsPath env options = .ok r) :
    (∀ c, options.cliPath = some c → c ≠ "" →
        r.source = .cliFlag ∧
        r.path = pathResolve env.cwd (expandHomePath env.home c)) ∧
    ((options.cliPath = none ∨ options.cliPath = some "") →
      (∀ v, env.envGlobalToolsPath = some v → v ≠ "" →
          r.source = .envVar ∧
          r.path = pathResolve env.cwd (expandHomePath env.home v)) ∧
      ((env.envGlobalToolsPath = none ∨ env.envGlobalToolsPath = some "") →
          r.source = .defaultSource ∧
          r.path = pathResolve env.cwd (getDefaultGlobalToolsPath env.home))) := by
  have hshape := resolve_ok_shape h
  refine ⟨?_, ?_⟩
  · intro c hc hne
    rw [hshape, resolvePre_cli hc hne]
    exact ⟨rfl, rfl⟩
  · intro hcli
    refine ⟨?_, ?_⟩
    · intro v hv hne
      rw [hshape, resolvePre_no_cli hcli, envOrDefault_set hv hne]
      exact ⟨rfl, rfl⟩
    · intro hv
      rw [hshape, resolvePre_no_cli hcli, envOrDefault_unset hv]
      exact ⟨rfl, rfl⟩

/-- Witness for the amended C2: environment variable /b, no override. -/
theorem path_precedence_amended_witness :
    ({ path := "/b", source := .envVar, pathExists := false } :
        ResolvedGlobalPath).source = .envVar ∧
    ({ path := "/b", source := .envVar, pathExists := false } :
        ResolvedGlobalPath).path =
      pathResolve envSetVar.cwd (expandHomePath envSetVar.home "/b") :=
  ((path_precedence_amended envSetVar { cliPath := none, validate := true }
      { path := "/b", source := .envVar, pathExists := false } rfl).2
    (Or.inl rfl)).1 "/b" rfl (by decide)

/-! ### C6: order lemmas for the merge comparator -/

theorem ltChars_irrefl : ∀ l : List Char, ltChars l l = false
  | [] => rfl
  | a :: as => by
      unfold ltChars
      rw [if_neg (lt_irrefl a), if_neg (lt_irrefl a)]
      exact ltChars_irrefl as

theorem ltChars_asymm : ∀ {a b : List Char},
    ltChars a b = true → ltChars b a = false := by
  intro a
  induction a with
  | nil =>
      intro b h
      cases b with
      | nil => simp [ltChars] at h
      | cons y ys => simp [ltChars]
  | cons x xs ih =>
      intro b h
      cases b with
      | nil => simp [ltChars] at h
      | cons y ys =>
          unfold ltChars at h ⊢
          rcases lt_trichotomy x y with hxy | hxy | hxy
          · rw [if_neg (lt_asymm hxy), if_pos hxy]
          · subst hxy
            rw [if_neg (lt_irrefl x), if_neg (lt_irrefl x)] at h ⊢
            exact ih h
          · rw [if_neg (lt_asymm hxy), if_pos hxy] at h
            exact absurd h (by decide)

theorem ltChars_trans : ∀ {a b c : List Char},
    ltChars a b = true → ltChars b c = true → ltChars a c = true := by
  intro a
  induction a with
  | nil =>
      intro b c hab hbc
      cases c with
      | nil =>
          cases b with
          | nil => exact hbc
          | cons y ys => simp [ltChars] at hbc
      | cons z zs => simp [ltChars]
  | cons x xs ih =>
      intro b c hab hbc
      cases b with
      | nil => simp [ltChars] at hab
      | cons y ys =>
          cases c with
          | nil => simp [ltChars] at hbc
          | cons z zs =>
              unfold ltChars at hab hbc ⊢
              rcases lt_trichotomy x y with hxy | hxy | hxy
              · rcases lt_trichotomy y z with hyz | hyz | hyz
                · rw [if_pos (lt_trans hxy hyz)]
                · subst hyz
                  rw [if_pos hxy]
                · rw [if_neg (lt_asymm hyz), if_pos hyz] at hbc
                  exact absurd hbc (by decide)
              · subst hxy
                rw [if_neg (lt_irrefl x), if_neg (lt_irrefl x)] at hab
                rcases lt_trichotomy x z with hxz | hxz | hxz
                · rw [if_pos hxz]
                · subst hxz
                  rw [if_neg (lt_irrefl x), if_neg (lt_irrefl x)] at hbc ⊢
                  exact ih hab hbc
                · rw [if_neg (lt_asymm hxz), if_pos hxz] at hbc
                  exact absurd hbc (by decide)
              · rw [if_neg (lt_asymm hxy), if_pos hxy] at hab
                exact absurd hab (by decide)

theorem ltChars_connex : ∀ {a b : List Char},
    ltChars a b = false → ltChars b a = false → a = b := by
  intro a
  induction a with
  | nil =>
      intro b hab _
      cases b with
      | nil => rfl
      | cons y ys => simp [ltChars] at hab
  | cons x xs ih =>
      intro b hab hba
      cases b with
      | nil => simp [ltChars] at hba
      | cons y ys =>
          unfold ltChars at hab hba
          rcases lt_trichotomy x y with hxy | hxy | hxy
          · rw [if_pos hxy] at hab
            exact absurd hab (by decide)
          · subst hxy
            rw [if_neg (lt_irrefl x), if_neg (lt_irrefl x)] at hab hba
            rw [ih hab hba]
          · rw [if_pos hxy] at hba
            exact absurd hba (by decide)

theorem ltChars_le_trans {a b c : List Char}
    (h1 : ltChars b a = false) (h2 : ltChars c b = false) :
    ltChars c a = false := by
  by_contra h
  rw [Bool.not_eq_false] at h
  cases hab : ltChars a b
  · cases ltChars_connex hab h1
    exact absurd h (by simp [h2])
  · exact absurd (ltChars_trans h hab) (by simp [h2])

theorem ltChars_le_total (a b : List Char) :
    ltChars b a = false ∨ ltChars a b = false := by
  cases hab : ltChars a b
  · exact Or.inr rfl
  · exact Or.inl (ltChars_asymm hab)

instance : IsTotal String (fun a b => jsLE a b = true) :=
  ⟨fun a b => by
    unfold jsLE jsLT
    rcases ltChars_le_total a.data b.data with h | h
    · exact Or.inl (by rw [h]; rfl)
    · exact Or.inr (by rw [h]; rfl)⟩

instance : IsTrans String (fun a b => jsLE a b = true) :=
  ⟨fun a b c hab hbc => by
    unfold jsLE jsLT at hab hbc ⊢
    rw [Bool.not_eq_true'] at hab hbc ⊢
    exact ltChars_le_trans hab hbc⟩

/-- Characterization of the non-positive comparisons of localeCompare as
the lexicographic combination of the primary (case-folded) and tertiary
(case-rank) levels. -/
theorem localeCompare_le_iff (a b : String) :
    localeCompare a b ≤ 0 ↔
      (jsLT (jsToLower a) (jsToLower b) = true ∨
        ((jsToLower a).data = (jsToLower b).data ∧
          jsLT (rankStr b) (rankStr a) = false)) := by
  unfold localeCompare jsLT
  split_ifs with h1 h2 h3 h4
  · exact iff_of_true (by decide) (Or.inl h1)
  · refine iff_of_false (by decide) ?_
    rintro (hlt | ⟨heq, _⟩)
    · exact h1 hlt
    · rw [← heq] at h2
      exact absurd h2 (by simp [ltChars_irrefl])
  · refine iff_of_true (by decide) (Or.inr ⟨?_, ltChars_asymm h3⟩)
    exact ltChars_connex (Bool.not_eq_true _ ▸ h1 : _ = false)
      (Bool.not_eq_true _ ▸ h2 : _ = false)
  · refine iff_of_false (by decide) ?_
    rintro (hlt | ⟨_, hr⟩)
    · exact h1 hlt
    · exact absurd h4 (by simp [hr])
  · refine iff_of_true (by decide) (Or.inr ⟨?_, Bool.not_eq_true _ ▸ h4⟩)
    exact ltChars_connex (Bool.not_eq_true _ ▸ h1 : _ = false)
      (Bool.not_eq_true _ ▸ h2 : _ = false)

/-- Totality of the locale comparison. -/
theorem localeCompare_le_total (a b : String) :
    localeCompare a b ≤ 0 ∨ localeCompare b a ≤ 0 := by
  rw [localeCompare_le_iff, localeCompare_le_iff]
  cases hab : jsLT (jsToLower a) (jsToLower b)
  · cases hba : jsLT (jsToLower b) (jsToLower a)
    · unfold jsLT at hab hba
      have heq := ltChars_connex hab hba
      rcases ltChars_le_total (rankStr a).data (rankStr b).data with hr | hr
      · exact Or.inl (Or.inr ⟨heq, hr⟩)
      · exact Or.inr (Or.inr ⟨heq.symm, hr⟩)
    · exact Or.inr (Or.inl rfl)
  · exact Or.inl (Or.inl rfl)

/-- Transitivity of the locale comparison. -/
theorem localeCompare_le_trans {a b c : String}
    (hab : localeCompare a b ≤ 0) (hbc : localeCompare b c ≤ 0) :
    localeCompare a c ≤ 0 := by
  rw [localeCompare_le_iff] at hab hbc ⊢
  rcases hab with hab | ⟨eab, rab⟩ <;> rcases hbc with hbc | ⟨ebc, rbc⟩
  · exact Or.inl (by unfold jsLT at hab hbc ⊢; exact ltChars_trans hab hbc)
  · exact Or.inl (by unfold jsLT at hab ⊢; rw [← ebc]; exact hab)
  · exact Or.inl (by unfold jsLT at hbc ⊢; rw [eab]; exact hbc)
  · exact Or.inr ⟨eab.trans ebc,
      by unfold jsLT at rab rbc ⊢; exact ltChars_le_trans rab rbc⟩

instance : IsTotal DiscoveredTool toolLE :=
  ⟨fun a b => by
    unfold toolLE toolCmp
    by_cases hs : a.source = b.source
    · rw [if_neg (not_not_intro hs), if_neg (not_not_intro hs.symm)]
      exact localeCompare_le_total _ _
    · rcases ha : a.source with _ | _ <;> rcases hb : b.source with _ | _
      all_goals first
        | exact absurd (ha.trans hb.symm) hs
        | exact Or.inl (by
            rw [if_pos (show ToolSource.globalSource ≠ ToolSource.localSource by decide),
              if_pos rfl]
            decide)
        | exact Or.inr (by
            rw [if_pos (show ToolSource.globalSource ≠ ToolSource.localSource by decide),
              if_pos rfl]
            decide)⟩

instance : IsTrans DiscoveredTool toolLE :=
  ⟨fun a b c hab hbc => by
    unfold toolLE toolCmp at hab hbc ⊢
    rcases ha : a.source with _ | _ <;> rcases hb : b.source with _ | _ <;>
      rcases hc : c.source with _ | _ <;> rw [ha, hb] at hab <;> rw [hb, hc] at hbc
    all_goals first
      | (rw [if_neg (show ¬(ToolSource.globalSource ≠ ToolSource.globalSource) by decide)]
            at hab hbc ⊢
         exact localeCompare_le_trans hab hbc)
      | (rw [if_neg (show ¬(ToolSource.localSource ≠ ToolSource.localSource) by decide)]
            at hab hbc ⊢
         exact localeCompare_le_trans hab hbc)
      | (rw [if_pos (show ToolSource.globalSource ≠ ToolSource.localSource by decide),
            if_pos rfl]
         decide)
      | (rw [if_pos (show ToolSource.localSource ≠ ToolSource.globalSource by decide),
            if_neg (show ¬(ToolSource.localSource = ToolSource.globalSource) by decide)] at hab
         exact absurd hab (by decide))
      | (rw [if_pos (show ToolSource.localSource ≠ ToolSource.globalSource by decide),
            if_neg (show ¬(ToolSource.localSource = ToolSource.globalSource) by decide)] at hbc
         exact absurd hbc (by decide))⟩

/-- The comparator order implies the abstract merged order: globals
precede locals, and names within one source follow the locale order. -/
theorem toolLE_imp_mergedSortOrder {a b : DiscoveredTool} (h : toolLE a b) :
    mergedSortOrder a b := by
  unfold toolLE toolCmp at h
  by_cases hs : a.source = b.source
  · rw [if_neg (not_not_intro hs)] at h
    exact Or.inr ⟨hs, h⟩
  · rw [if_pos hs] at h
    rcases ha : a.source with _ | _ <;> rcases hb : b.source with _ | _
    · exact absurd (ha.trans hb.symm) hs
    · exact Or.inl ⟨ha, hb⟩
    · rw [ha] at h
      exact absurd h (by decide)
    · exact absurd (ha.trans hb.symm) hs

/-- C6 as stated fails on the code: Array.prototype.sort is called with a
localeCompare comparator, whose order is not the case-sensitive
lexicographic order.  With global entries named B and a, the merged
output is ordered a before B, while the code-point order puts B first. -/
theorem merge_sort_cex : ¬ claimC6Prop := by
  intro h
  have hs := (h gOrderRes (mkResults [])).1
  have htools : (mergeResults gOrderRes (mkResults [])).tools =
      [mkEntry "a" .globalSource "a.ts", mkEntry "B" .globalSource "b.ts"] := rfl
  rw [htools] at hs
  have hrel := List.rel_of_sorted_cons hs _ (List.Mem.head _)
  rcases hrel with ⟨_, hb⟩ | ⟨_, hle⟩
  · exact absurd hb (by decide)
  · exact absurd hle (by decide)

/-- C6 amended: the merged entries are sorted with every global entry
before every local entry and, within one source, by the locale order of
localeCompare (case-insensitive primary comparison, lowercase before
uppercase on case-only differences) rather than by case-sensitive
lexicographic order; the conflict list is sorted lexicographically. -/
theorem merge_sorted_amended (g l : DiscoveryResults) :
    ((mergeResults g l).tools).Sorted mergedSortOrder ∧
    ((mergeResults g l).summary.conflicts).Sorted (fun a b => jsLE a b = true) := by
  constructor
  · exact List.Pairwise.imp (fun h => toolLE_imp_mergedSortOrder h)
      (List.sorted_insertionSort toolLE _)
  · exact List.sorted_insertionSort _ _

/-! ### Association-map lemmas shared by the merge claims -/

theorem mapLookup_mapSet :
    ∀ (m : List (String × DiscoveredTool)) (key : String) (value : DiscoveredTool)
      (k : String),
      mapLookup (mapSet m key value) k =
        if k = key then some value else mapLookup m k := by
  intro m key value
  induction m with
  | nil =>
      intro k
      show (if key = k then some value else none) =
        if k = key then some value else none
      by_cases h : k = key
      · subst h
        rw [if_pos rfl]
      · rw [if_neg (fun hh => h hh.symm), if_neg h]
  | cons p rest ih =>
      intro k
      obtain ⟨k', v'⟩ := p
      unfold mapSet
      by_cases h1 : k' = key
      · rw [if_pos h1]
        subst h1
        show (if k' = k then some value else mapLookup rest k) = _
        by_cases h2 : k' = k
        · rw [if_pos h2, if_pos h2.symm]
        · rw [if_neg h2, if_neg (fun hh => h2 hh.symm)]
          exact (if_neg h2).symm
      · rw [if_neg h1]
        show (if k' = k then some v' else mapLookup (mapSet rest key value) k) = _
        by_cases h2 : k' = k
        · rw [if_pos h2, if_neg (fun hh : k = key => h1 (h2.trans hh))]
          exact (if_pos h2).symm
        · rw [if_neg h2, ih k]
          by_cases h3 : k = key
          · rw [if_pos h3, if_pos h3]
          · rw [if_neg h3, if_neg h3]
            exact (if_neg h2).symm

theorem mapLookup_mem :
    ∀ {m : List (String × DiscoveredTool)} {k : String} {v : DiscoveredTool},
      mapLookup m k = some v → (k, v) ∈ m := by
  intro m
  induction m with
  | nil => intro k v h; simp [mapLookup] at h
  | cons p rest ih =>
      intro k v h
      obtain ⟨k', v'⟩ := p
      unfold mapLookup at h
      split_ifs at h with h1
      · obtain ⟨hv⟩ := h
        subst h1
        exact List.Mem.head _
      · exact List.mem_cons_of_mem _ (ih h)

theorem mem_mapSet :
    ∀ {m : List (String × DiscoveredTool)} {key : String} {value : DiscoveredTool}
      {p : String × DiscoveredTool},
      p ∈ mapSet m key value → p ∈ m ∨ p = (key, value) := by
  intro m key value
  induction m with
  | nil =>
      intro p h
      simp [mapSet] at h
      exact Or.inr h
  | cons q rest ih =>
      intro p h
      obtain ⟨k', v'⟩ := q
      unfold mapSet at h
      split_ifs at h with h1
      · rcases List.mem_cons.1 h with h2 | h2
        · subst h1
          exact Or.inr (by rw [h2])
        · exact Or.inl (List.mem_cons_of_mem _ h2)
      · rcases List.mem_cons.1 h with h2 | h2
        · exact Or.inl (by rw [h2]; exact List.Mem.head _)
        · rcases ih h2 with h3 | h3
          · exact Or.inl (List.mem_cons_of_mem _ h3)
          · exact Or.inr h3

theorem mapKeys_mapSet (m : List (String × DiscoveredTool)) (key : String)
    (value : DiscoveredTool) :
    mapKeys (mapSet m key value) =
      if key ∈ mapKeys m then mapKeys m else mapKeys m ++ [key] := by
  induction m with
  | nil => simp [mapSet, mapKeys]
  | cons p rest ih =>
      obtain ⟨k', v'⟩ := p
      by_cases h : k' = key
      · subst h
        simp [mapSet, mapKeys]
      · simp only [mapSet, if_neg h, mapKeys, List.map_cons] at ih ⊢
        rw [ih]
        by_cases h2 : key ∈ List.map Prod.fst rest
        · rw [if_pos h2, if_pos (List.mem_cons_of_mem _ h2)]
        · rw [if_neg h2, if_neg (by
            intro hcon
            rcases List.mem_cons.1 hcon with hcon | hcon
            · exact h hcon.symm
            · exact h2 hcon)]
          rfl

theorem nodup_mapKeys_mapSet {m : List (String × DiscoveredTool)} {key : String}
    {value : DiscoveredTool} (h : (mapKeys m).Nodup) :
    (mapKeys (mapSet m key value)).Nodup := by
  rw [mapKeys_mapSet]
  split_ifs with hmem
  · exact h
  · simp only [List.nodup_append, List.nodup_cons, List.not_mem_nil, not_false_eq_true,
      List.nodup_nil, and_true, true_and]
    exact ⟨h, by simpa [List.disjoint_right] using hmem⟩

theorem wf_nil : WFMap [] := ⟨List.nodup_nil, by simp⟩

theorem wf_mapSet {m : List (String × DiscoveredTool)} {value : DiscoveredTool}
    (h : WFMap m) : WFMap (mapSet m (toolKey value) value) := by
  refine ⟨nodup_mapKeys_mapSet h.1, ?_⟩
  intro p hp
  rcases mem_mapSet hp with h2 | h2
  · exact h.2 p h2
  · rw [h2]

theorem wf_seedGlobals :
    ∀ (ts : List DiscoveredTool) (m : List (String × DiscoveredTool)),
      WFMap m → WFMap (seedGlobals m ts)
  | [], _, h => h
  | _ :: ts, _, h => wf_seedGlobals ts _ (wf_mapSet h)

theorem wf_processLocals :
    ∀ (ts : List DiscoveredTool) (m : List (String × DiscoveredTool))
      (cs : List String), WFMap m → WFMap (processLocals m cs ts).1
  | [], _, _, h => h
  | _ :: ts, _, _, h => wf_processLocals ts _ _ (wf_mapSet h)

theorem mapValues_key_eq {m : List (String × DiscoveredTool)} (h : WFMap m) :
    (mapValues m).map toolKey = mapKeys m := by
  unfold mapValues mapKeys
  rw [List.map_map]
  exact (List.map_congr_left (fun p hp => (h.2 p hp).symm))

/-! ### C9 -/

theorem length_filter_source (ts : List DiscoveredTool) :
    (ts.filter (fun t => isGlobalEntry t)).length +
      (ts.filter (fun t => isLocalEntry t)).length = ts.length := by
  induction ts with
  | nil => rfl
  | cons t rest ih =>
      rcases hsrc : t.source with _ | _
      · rw [List.filter_cons_of_pos (by simp [isGlobalEntry, hsrc]),
          List.filter_cons_of_neg (by simp [isLocalEntry, hsrc]),
          List.length_cons, List.length_cons]
        omega
      · rw [List.filter_cons_of_neg (by simp [isGlobalEntry, hsrc]),
          List.filter_cons_of_pos (by simp [isLocalEntry, hsrc]),
          List.length_cons, List.length_cons]
        omega

/-- C9: the merged entries have pairwise-distinct lower-cased names, and
the summary satisfies total = number of entries, global = number of
global-sourced entries, local = number of local-sourced entries, hence
total = global + local. -/
theorem merge_invariants (g l : DiscoveryResults) :
    ((mergeResults g l).tools.map toolKey).Nodup ∧
    (mergeResults g l).summary.total = (mergeResults g l).tools.length ∧
    (mergeResults g l).summary.globalCount =
      ((mergeResults g l).tools.filter (fun t => isGlobalEntry t)).length ∧
    (mergeResults g l).summary.localCount =
      ((mergeResults g l).tools.filter (fun t => isLocalEntry t)).length ∧
    (mergeResults g l).summary.total =
      (mergeResults g l).summary.globalCount + (mergeResults g l).summary.localCount := by
  have hwf : WFMap (processLocals (seedGlobals [] g.tools) [] l.tools).1 :=
    wf_processLocals _ _ _ (wf_seedGlobals _ _ wf_nil)
  refine ⟨?_, rfl, rfl, rfl, ?_⟩
  · have hperm := (List.perm_insertionSort toolLE
      (mapValues (processLocals (seedGlobals [] g.tools) [] l.tools).1)).map toolKey
    exact hperm.nodup_iff.mpr (by rw [mapValues_key_eq hwf]; exact hwf.1)
  · exact (length_filter_source _).symm

/-! ### C7 -/

theorem processLocals_conflicts_all_local :
    ∀ (ts : List DiscoveredTool) (m : List (String × DiscoveredTool)) (cs : List String),
      (∀ p ∈ m, p.2.source = .localSource) → (∀ t ∈ ts, t.source = .localSource) →
      (processLocals m cs ts).2 = cs := by
  intro ts
  induction ts with
  | nil => intro m cs _ _; rfl
  | cons t rest ih =>
      intro m cs hm hts
      show (processLocals (mapSet m (toolKey t) t)
        (match mapLookup m (toolKey t) with
          | some existing =>
              if existing.source = .globalSource then cs ++ [toolName t] else cs
          | none => cs) rest).2 = cs
      have hm2 : ∀ p ∈ mapSet m (toolKey t) t, p.2.source = .localSource := by
        intro p hp
        rcases mem_mapSet hp with h2 | h2
        · exact hm p h2
        · rw [h2]
          exact hts t (List.mem_cons_self t rest)
      have hts2 : ∀ u ∈ rest, u.source = .localSource :=
        fun u hu => hts u (List.mem_cons_of_mem t hu)
      rcases hml : mapLookup m (toolKey t) with _ | e
      · exact ih _ _ hm2 hts2
      · show (processLocals (mapSet m (toolKey t) t)
          (if e.source = .globalSource then cs ++ [toolName t] else cs) rest).2 = cs
        rw [if_neg (by
          rw [hm (toolKey t, e) (mapLookup_mem hml)]
          exact fun hcon => by cases hcon)]
        exact ih _ _ hm2 hts2

theorem mapSet_not_mem {m : List (String × DiscoveredTool)} {key : String}
    {value : DiscoveredTool} (h : key ∉ mapKeys m) :
    mapSet m key value = m ++ [(key, value)] := by
  induction m with
  | nil => rfl
  | cons p rest ih =>
      obtain ⟨k', v'⟩ := p
      have hne : k' ≠ key := by
        intro hcon
        exact h (by rw [← hcon]; exact List.Mem.head _)
      unfold mapSet
      rw [if_neg hne, ih (fun hcon => h (List.mem_cons_of_mem _ hcon))]
      rfl

theorem seedGlobals_eq :
    ∀ (ts : List DiscoveredTool) (m : List (String × DiscoveredTool)),
      (ts.map toolKey).Nodup → (∀ t ∈ ts, toolKey t ∉ mapKeys m) →
      seedGlobals m ts = m ++ ts.map (fun t => (toolKey t, t)) := by
  intro ts
  induction ts with
  | nil => intro m _ _; simp [seedGlobals]
  | cons t rest ih =>
      intro m hnodup hnotm
      show seedGlobals (mapSet m (toolKey t) t) rest = _
      rw [ih (mapSet m (toolKey t) t) (List.Nodup.of_cons hnodup) ?_,
        mapSet_not_mem (hnotm t (List.mem_cons_self t rest))]
      · simp
      · intro u hu
        rw [mapKeys_mapSet, if_neg (hnotm t (List.mem_cons_self t rest))]
        intro hcon
        rcases List.mem_append.1 hcon with h2 | h2
        · exact hnotm u (List.mem_cons_of_mem t hu) h2
        · have : toolKey u ≠ toolKey t := by
            have := List.nodup_cons.1 hnodup
            intro heq
            exact this.1 (heq ▸ List.mem_map_of_mem toolKey hu)
          simp at h2
          exact this h2

theorem processLocals_map_eq :
    ∀ (ts : List DiscoveredTool) (m : List (String × DiscoveredTool)) (cs : List String),
      (ts.map toolKey).Nodup → (∀ t ∈ ts, toolKey t ∉ mapKeys m) →
      (processLocals m cs ts).1 = m ++ ts.map (fun t => (toolKey t, t)) := by
  intro ts
  induction ts with
  | nil => intro m cs _ _; simp [processLocals]
  | cons t rest ih =>
      intro m cs hnodup hnotm
      show (processLocals (mapSet m (toolKey t) t) _ rest).1 = _
      rw [ih (mapSet m (toolKey t) t) _ (List.Nodup.of_cons hnodup) ?_,
        mapSet_not_mem (hnotm t (List.mem_cons_self t rest))]
      · simp
      · intro u hu
        rw [mapKeys_mapSet, if_neg (hnotm t (List.mem_cons_self t rest))]
        intro hcon
        rcases List.mem_append.1 hcon with h2 | h2
        · exact hnotm u (List.mem_cons_of_mem t hu) h2
        · have : toolKey u ≠ toolKey t := by
            have := List.nodup_cons.1 hnodup
            intro heq
            exact this.1 (heq ▸ List.mem_map_of_mem toolKey hu)
          simp at h2
          exact this h2

/-- The merged entry list always has pairwise-distinct lower-cased names:
the keyed map has distinct keys and the sort is a permutation. -/
theorem merged_keys_nodup (g l : DiscoveryResults) :
    ((mergeResults g l).tools.map toolKey).Nodup := by
  have hwf : WFMap (processLocals (seedGlobals [] g.tools) [] l.tools).1 :=
    wf_processLocals _ _ _ (wf_seedGlobals _ _ wf_nil)
  have hperm := (List.perm_insertionSort toolLE
    (mapValues (processLocals (seedGlobals [] g.tools) [] l.tools).1)).map toolKey
  exact hperm.nodup_iff.mpr (by rw [mapValues_key_eq hwf]; exact hwf.1)

/-- The merged entry list is always sorted in the merge order. -/
theorem merged_tools_sorted (g l : DiscoveryResults) :
    ((mergeResults g l).tools).Sorted toolLE :=
  List.sorted_insertionSort toolLE _

/-- C7 as stated fails on the code: the merge rebuilds and sorts the
entry list, so a local-only input whose entries are not already in the
merge order comes back reordered rather than unchanged. -/
theorem merge_identity_cex : ¬ claimC7Prop := by
  intro h
  have hid := (h.1 lUnsortedRes (by decide)).1
  have hcomp : (mergeResults emptyResults lUnsortedRes).tools =
      [mkEntry "a" .localSource "a.ts", mkEntry "b" .localSource "b.ts"] := rfl
  rw [hcomp] at hid
  injection hid with h1 _
  exact absurd (congrArg DiscoveredTool.filename h1) (by decide)

/-- C7 amended: merging the empty result with a local-only result always
yields an empty conflict list, and yields the entry list unchanged
exactly when that list already has pairwise-distinct lower-cased names
and is already sorted in the merge order; symmetrically for merging any
result with the empty local result (there the conflict list is empty
unconditionally). -/
theorem merge_identity_amended :
    (∀ L : DiscoveryResults, (∀ t ∈ L.tools, t.source = .localSource) →
      (mergeResults emptyResults L).summary.conflicts = [] ∧
      ((mergeResults emptyResults L).tools = L.tools ↔
        (L.tools.map toolKey).Nodup ∧ L.tools.Sorted toolLE)) ∧
    (∀ G : DiscoveryResults,
      (mergeResults G emptyResults).summary.conflicts = [] ∧
      ((mergeResults G emptyResults).tools = G.tools ↔
        (G.tools.map toolKey).Nodup ∧ G.tools.Sorted toolLE)) := by
  constructor
  · intro L hsrc
    constructor
    · show ((processLocals (seedGlobals [] []) [] L.tools).2).insertionSort _ = []
      rw [show seedGlobals [] ([] : List DiscoveredTool) = [] from rfl,
        processLocals_conflicts_all_local L.tools [] [] (by simp) hsrc]
      rfl
    · constructor
      · intro heq
        exact ⟨heq ▸ merged_keys_nodup emptyResults L,
          heq ▸ merged_tools_sorted emptyResults L⟩
      · rintro ⟨hnodup, hsorted⟩
        show ((mapValues (processLocals (seedGlobals [] []) [] L.tools).1).insertionSort
          toolLE) = L.tools
        rw [show seedGlobals [] ([] : List DiscoveredTool) = [] from rfl,
          processLocals_map_eq L.tools [] [] hnodup (by simp [mapKeys])]
        unfold mapValues
        rw [List.nil_append, List.map_map]
        rw [show (Prod.snd ∘ fun t => (toolKey t, t)) = id from rfl, List.map_id]
        exact hsorted.insertionSort_eq
  · intro G
    constructor
    · rfl
    · constructor
      · intro heq
        exact ⟨heq ▸ merged_keys_nodup G emptyResults,
          heq ▸ merged_tools_sorted G emptyResults⟩
      · rintro ⟨hnodup, hsorted⟩
        show ((mapValues (processLocals (seedGlobals [] G.tools) [] []).1).insertionSort
          toolLE) = G.tools
        rw [show ∀ m, (processLocals m ([] : List String) []).1 = m from fun _ => rfl,
          seedGlobals_eq G.tools [] hnodup (by simp [mapKeys])]
        unfold mapValues
        rw [List.nil_append, List.map_map]
        rw [show (Prod.snd ∘ fun t => (toolKey t, t)) = id from rfl, List.map_id]
        exact hsorted.insertionSort_eq

/-- Witness for the amended C7 at a sorted, duplicate-free local-only
input. -/
theorem merge_identity_amended_witness :
    (mergeResults emptyResults lSortedRes).summary.conflicts = [] ∧
    (mergeResults emptyResults lSortedRes).tools = lSortedRes.tools :=
  ⟨(merge_identity_amended.1 lSortedRes (by decide)).1,
   (merge_identity_amended.1 lSortedRes (by decide)).2.mpr ⟨by decide, by decide⟩⟩

/-! ### C1 -/

theorem lookupIsGlobal_eq_none {m : List (String × DiscoveredTool)} {k : String}
    (h : mapLookup m k = none) : lookupIsGlobal m k = false := by
  unfold lookupIsGlobal
  rw [h]

theorem lookupIsGlobal_eq_some {m : List (String × DiscoveredTool)} {k : String}
    {e : DiscoveredTool} (h : mapLookup m k = some e) :
    lookupIsGlobal m k = isGlobalEntry e := by
  unfold lookupIsGlobal
  rw [h]

theorem isGlobalEntry_true {e : DiscoveredTool} (h : e.source = .globalSource) :
    isGlobalEntry e = true := by
  unfold isGlobalEntry
  rw [h]

theorem eq_global_of_isGlobalEntry {e : DiscoveredTool} (h : isGlobalEntry e = true) :
    e.source = .globalSource := by
  unfold isGlobalEntry at h
  rcases hsrc : e.source
  · exact rfl
  · rw [hsrc] at h
    exact absurd h (by decide)

theorem heldGlobalSeed_iff (g : DiscoveryResults) (k : String) :
    heldGlobalSeed g k ↔ lookupIsGlobal (seedGlobals [] g.tools) k = true := by
  unfold heldGlobalSeed
  rcases hml : mapLookup (seedGlobals [] g.tools) k with _ | e
  · rw [lookupIsGlobal_eq_none hml]
    simp
  · rw [lookupIsGlobal_eq_some hml]
    constructor
    · rintro ⟨e', he', hsrc⟩
      injection he' with he'
      exact isGlobalEntry_true (by rw [he']; exact hsrc)
    · intro hg
      exact ⟨e, rfl, eq_global_of_isGlobalEntry hg⟩

theorem processLocals_conflicts_split :
    ∀ (ts : List DiscoveredTool) (m : List (String × DiscoveredTool)) (cs : List String),
      (processLocals m cs ts).2 = cs ++ conflictNames m ts := by
  intro ts
  induction ts with
  | nil => intro m cs; simp [processLocals, conflictNames]
  | cons t rest ih =>
      intro m cs
      show (processLocals (mapSet m (toolKey t) t)
        (match mapLookup m (toolKey t) with
          | some existing =>
              if existing.source = .globalSource then cs ++ [toolName t] else cs
          | none => cs) rest).2 = cs ++ conflictNames m (t :: rest)
      rw [ih, conflictNames]
      rcases hml : mapLookup m (toolKey t) with _ | e
      · rfl
      · by_cases hg : e.source = .globalSource
        · show (if e.source = .globalSource then cs ++ [toolName t] else cs) ++ _ =
            cs ++ ((if e.source = .globalSource then [toolName t] else []) ++ _)
          rw [if_pos hg, if_pos hg, List.append_assoc]
        · show (if e.source = .globalSource then cs ++ [toolName t] else cs) ++ _ =
            cs ++ ((if e.source = .globalSource then [toolName t] else []) ++ _)
          rw [if_neg hg, if_neg hg, List.nil_append]

theorem conflictNames_congr :
    ∀ (ts : List DiscoveredTool) (m₁ m₂ : List (String × DiscoveredTool)),
      (∀ t ∈ ts, mapLookup m₁ (toolKey t) = mapLookup m₂ (toolKey t)) →
      conflictNames m₁ ts = conflictNames m₂ ts := by
  intro ts
  induction ts with
  | nil => intros; rfl
  | cons t rest ih =>
      intro m₁ m₂ h
      unfold conflictNames
      rw [h t (List.mem_cons_self t rest)]
      congr 1
      exact ih _ _ (fun u hu => by
        rw [mapLookup_mapSet, mapLookup_mapSet, h u (List.mem_cons_of_mem t hu)])

theorem conflictNames_eq_filter :
    ∀ (ts : List DiscoveredTool) (m : List (String × DiscoveredTool)),
      (ts.map toolKey).Nodup →
      conflictNames m ts =
        (ts.filter (fun t => lookupIsGlobal m (toolKey t))).map toolName := by
  intro ts
  induction ts with
  | nil => intros; rfl
  | cons t rest ih =>
      intro m hnodup
      have hirrel : conflictNames (mapSet m (toolKey t) t) rest = conflictNames m rest := by
        refine conflictNames_congr rest _ _ ?_
        intro u hu
        rw [mapLookup_mapSet, if_neg ?_]
        intro hcon
        exact (List.nodup_cons.1 hnodup).1 (hcon ▸ List.mem_map_of_mem toolKey hu)
      show (match mapLookup m (toolKey t) with
        | some existing =>
            if existing.source = .globalSource then [toolName t] else []
        | none => []) ++ conflictNames (mapSet m (toolKey t) t) rest = _
      rw [hirrel, ih m (List.nodup_cons.1 hnodup).2]
      rcases hml : mapLookup m (toolKey t) with _ | e
      · rw [List.filter_cons_of_neg (by rw [lookupIsGlobal_eq_none hml]; decide)]
        rfl
      · by_cases hg : e.source = .globalSource
        · rw [List.filter_cons_of_pos
            (by rw [lookupIsGlobal_eq_some hml]; exact isGlobalEntry_true hg)]
          show (if e.source = .globalSource then [toolName t] else []) ++ _ = _
          rw [if_pos hg, List.map_cons]
          rfl
        · rw [List.filter_cons_of_neg (by
            rw [lookupIsGlobal_eq_some hml]
            intro hcon
            exact hg (eq_global_of_isGlobalEntry hcon))]
          show (if e.source = .globalSource then [toolName t] else []) ++ _ = _
          rw [if_neg hg, List.nil_append]

theorem processLocals_lookup_not_mem :
    ∀ (ts : List DiscoveredTool) (m : List (String × DiscoveredTool)) (cs : List String)
      (key : String), key ∉ ts.map toolKey →
      mapLookup (processLocals m cs ts).1 key = mapLookup m key := by
  intro ts
  induction ts with
  | nil => intros; rfl
  | cons t rest ih =>
      intro m cs key hkey
      have hne : key ≠ toolKey t := by
        intro h
        exact hkey (by rw [h]; exact List.mem_map_of_mem toolKey (List.mem_cons_self t rest))
      show mapLookup (processLocals (mapSet m (toolKey t) t) _ rest).1 key = _
      rw [ih _ _ key (fun hcon => hkey (List.mem_cons_of_mem _ hcon)),
        mapLookup_mapSet, if_neg hne]

theorem processLocals_lookup_self :
    ∀ (ts : List DiscoveredTool) (m : List (String × DiscoveredTool)) (cs : List String)
      (t : DiscoveredTool), t ∈ ts → (ts.map toolKey).Nodup →
      mapLookup (processLocals m cs ts).1 (toolKey t) = some t := by
  intro ts
  induction ts with
  | nil => intro m cs t ht; exact absurd ht (List.not_mem_nil t)
  | cons u rest ih =>
      intro m cs t ht hnodup
      rcases List.mem_cons.1 ht with h | h
      · subst h
        show mapLookup (processLocals (mapSet m (toolKey t) t) _ rest).1 (toolKey t) = _
        rw [processLocals_lookup_not_mem rest _ _ _ (List.nodup_cons.1 hnodup).1,
          mapLookup_mapSet, if_pos rfl]
      · exact ih _ _ t h (List.nodup_cons.1 hnodup).2

theorem wf_of_cons {p : String × DiscoveredTool} {rest : List (String × DiscoveredTool)}
    (h : WFMap (p :: rest)) : WFMap rest :=
  ⟨(List.nodup_cons.1 h.1).2, fun q hq => h.2 q (List.mem_cons_of_mem p hq)⟩

theorem filter_values_not_mem :
    ∀ {m : List (String × DiscoveredTool)} {k : String}, WFMap m → k ∉ mapKeys m →
      (mapValues m).filter (fun u => toolKey u == k) = [] := by
  intro m
  induction m with
  | nil => intros; rfl
  | cons p rest ih =>
      intro k hwf hk
      obtain ⟨k', v'⟩ := p
      have hkv : k' = toolKey v' := hwf.2 (k', v') (List.Mem.head _)
      have hne : toolKey v' ≠ k := by
        intro hcon
        exact hk (by rw [← hcon, ← hkv]; exact List.Mem.head _)
      show List.filter _ (v' :: mapValues rest) = []
      rw [List.filter_cons_of_neg (by simp [hne])]
      exact ih (wf_of_cons hwf) (fun hcon => hk (List.mem_cons_of_mem _ hcon))

theorem filter_values_lookup :
    ∀ {m : List (String × DiscoveredTool)} {k : String} {v : DiscoveredTool},
      WFMap m → mapLookup m k = some v →
      (mapValues m).filter (fun u => toolKey u == k) = [v] := by
  intro m
  induction m with
  | nil => intro k v _ hl; simp [mapLookup] at hl
  | cons p rest ih =>
      intro k v hwf hl
      obtain ⟨k', v'⟩ := p
      have hkv : k' = toolKey v' := hwf.2 (k', v') (List.Mem.head _)
      unfold mapLookup at hl
      split_ifs at hl with h1
      · injection hl with hv
        subst hv
        subst h1
        show List.filter _ (v' :: mapValues rest) = [v']
        rw [List.filter_cons_of_pos (by simp [← hkv]),
          filter_values_not_mem (wf_of_cons hwf) (List.nodup_cons.1 hwf.1).1]
      · show List.filter _ (v' :: mapValues rest) = [v]
        rw [List.filter_cons_of_neg (by
          simp only [beq_iff_eq]
          intro hcon
          exact h1 (hkv.trans hcon))]
        exact ih (wf_of_cons hwf) hl

/-- C1 as stated fails on the code: with two local entries sharing the
lower-cased key of a global entry, the first local entry satisfies the
held-under-global condition, but the merged output holds the data of the
second (last) local entry, not the first. -/
theorem merge_conflict_cex : ¬ claimC1Prop := by
  intro h
  have h0 := (h gBuildRes lDupRes 0 (by decide)).1
  have hheld : heldGlobalSeed gBuildRes (toolKey (lDupRes.tools.get ⟨0, by decide⟩)) :=
    ⟨mkEntry "Build" .globalSource "g.ts", rfl, rfl⟩
  have hfirst : ∀ u ∈ lDupRes.tools.take 0,
      toolKey u ≠ toolKey (lDupRes.tools.get ⟨0, by decide⟩) := by
    intro u hu
    simp [lDupRes, mkResults] at hu
  have hfilter := (h0 ⟨hheld, hfirst⟩).1
  have hcomp : (mergeResults gBuildRes lDupRes).tools.filter
      (fun u => toolKey u == toolKey (lDupRes.tools.get ⟨0, by decide⟩)) =
      [mkEntry "BUILD" .localSource "l2.ts"] := rfl
  rw [hcomp] at hfilter
  injection hfilter with h1 _
  exact absurd (congrArg DiscoveredTool.filename h1) (by decide)

/-- C1 amended: when the local entries have pairwise-distinct lower-cased
names, then for every local entry whose key is held under a global
sourceKind in the seeded association, the merged output has exactly one
entry for that key, that entry is this local entry, and the conflict list
holds its original-case name; a local entry whose key is not so held
produces no conflict record.  Without the distinctness hypothesis, a
later duplicate local entry silently replaces the data while the conflict
list keeps only the first entry's name. -/
theorem merge_conflict_amended (g l : DiscoveryResults)
    (hdist : (l.tools.map toolKey).Nodup) (i : Nat) (hi : i < l.tools.length) :
    (heldGlobalSeed g (toolKey (l.tools.get ⟨i, hi⟩)) →
      (mergeResults g l).tools.filter
          (fun u => toolKey u == toolKey (l.tools.get ⟨i, hi⟩)) =
        [l.tools.get ⟨i, hi⟩] ∧
      toolName (l.tools.get ⟨i, hi⟩) ∈ (mergeResults g l).summary.conflicts) ∧
    (¬ heldGlobalSeed g (toolKey (l.tools.get ⟨i, hi⟩)) →
      toolName (l.tools.get ⟨i, hi⟩) ∉ (mergeResults g l).summary.conflicts) := by
  set t := l.tools.get ⟨i, hi⟩ with ht
  have htmem : t ∈ l.tools := ht ▸ List.get_mem l.tools i hi
  have hwf : WFMap (processLocals (seedGlobals [] g.tools) [] l.tools).1 :=
    wf_processLocals _ _ _ (wf_seedGlobals _ _ wf_nil)
  have hconf : (mergeResults g l).summary.conflicts =
      ((l.tools.filter (fun u =>
          lookupIsGlobal (seedGlobals [] g.tools) (toolKey u))).map toolName).insertionSort
        (fun a b => jsLE a b = true) := by
    show ((processLocals (seedGlobals [] g.tools) [] l.tools).2).insertionSort _ = _
    rw [processLocals_conflicts_split, List.nil_append, conflictNames_eq_filter _ _ hdist]
  have hnames : (l.tools.map toolName).Nodup := by
    refine List.Nodup.of_map jsToLower ?_
    rw [List.map_map]
    exact hdist
  constructor
  · intro hheld
    constructor
    · have hlook : mapLookup (processLocals (seedGlobals [] g.tools) [] l.tools).1
          (toolKey t) = some t :=
        processLocals_lookup_self l.tools _ _ t htmem hdist
      have hperm := ((List.perm_insertionSort toolLE
        (mapValues (processLocals (seedGlobals [] g.tools) [] l.tools).1)).filter
          (fun u => toolKey u == toolKey t))
      rw [filter_values_lookup hwf hlook] at hperm
      exact List.perm_singleton.1 hperm
    · rw [hconf]
      rw [List.mem_insertionSort]
      exact List.mem_map_of_mem toolName (List.mem_filter.2
        ⟨htmem, (heldGlobalSeed_iff g (toolKey t)).1 hheld⟩)
  · intro hheld hmem
    rw [hconf, List.mem_insertionSort] at hmem
    obtain ⟨u, hu, hname⟩ := List.mem_map.1 hmem
    obtain ⟨humem, hulook⟩ := List.mem_filter.1 hu
    have hut : u = t := List.inj_on_of_nodup_map hnames humem htmem hname
    exact hheld ((heldGlobalSeed_iff g (toolKey t)).2 (hut ▸ hulook))

/-- Witness for the amended C1: global Build, one local build. -/
theorem merge_conflict_amended_witness :
    (mergeResults gBuildRes (mkResults [mkEntry "build" .localSource "l.ts"])).tools.filter
        (fun u => toolKey u ==
          toolKey ((mkResults [mkEntry "build" .localSource "l.ts"]).tools.get
            ⟨0, by decide⟩)) =
      [(mkResults [mkEntry "build" .localSource "l.ts"]).tools.get ⟨0, by decide⟩] ∧
    toolName ((mkResults [mkEntry "build" .localSource "l.ts"]).tools.get ⟨0, by decide⟩) ∈
      (mergeResults gBuildRes
        (mkResults [mkEntry "build" .localSource "l.ts"])).summary.conflicts :=
  (merge_conflict_amended gBuildRes (mkResults [mkEntry "build" .localSource "l.ts"])
      (by decide) 0 (by decide)).1
    ⟨mkEntry "Build" .globalSource "g.ts", rfl, rfl⟩

/-! ### C3: normalized paths contain no doubled separator -/

theorem splitOnSlash_no_slash :
    ∀ (cs : List Char), ∀ s ∈ splitOnSlash cs, '/' ∉ s := by
  intro cs
  induction cs with
  | nil =>
      intro s hs
      simp only [splitOnSlash, List.mem_singleton] at hs
      subst hs
      simp
  | cons c rest ih =>
      intro s hs
      unfold splitOnSlash at hs
      by_cases hc : c = '/'
      · rw [if_pos hc] at hs
        rcases List.mem_cons.1 hs with h | h
        · subst h; simp
        · exact ih s h
      · rw [if_neg hc] at hs
        rcases hrec : splitOnSlash rest with _ | ⟨s0, ss⟩
        · rw [hrec] at hs
          rcases List.mem_cons.1 hs with h | h
          · subst h
            intro hmem
            rcases List.mem_cons.1 hmem with h2 | h2
            · exact hc h2.symm
            · exact absurd h2 (List.not_mem_nil _)
          · exact absurd h (List.not_mem_nil s)
        · rw [hrec] at hs
          rcases List.mem_cons.1 hs with h | h
          · subst h
            intro hmem
            rcases List.mem_cons.1 hmem with h2 | h2
            · exact hc h2.symm
            · exact ih s0 (by rw [hrec]; exact List.Mem.head _) h2
          · exact ih s (by rw [hrec]; exact List.mem_cons_of_mem s0 h)

theorem normSegs_wf :
    ∀ (segs acc : List (List Char)) (isAbs : Bool),
      (∀ s ∈ segs, '/' ∉ s) → (∀ s ∈ acc, s ≠ [] ∧ '/' ∉ s) →
      ∀ s ∈ normSegs isAbs acc segs, s ≠ [] ∧ '/' ∉ s := by
  intro segs
  induction segs with
  | nil =>
      intro acc isAbs _ hacc s hs
      unfold normSegs at hs
      exact hacc s (List.mem_reverse.1 hs)
  | cons seg rest ih =>
      intro acc isAbs hsegs hacc s hs
      have hsegs2 : ∀ u ∈ rest, '/' ∉ u :=
        fun u hu => hsegs u (List.mem_cons_of_mem _ hu)
      have hseg : '/' ∉ seg := hsegs seg (List.mem_cons_self _ _)
      unfold normSegs at hs
      by_cases h1 : seg = [] ∨ seg = ['.']
      · rw [if_pos h1] at hs
        exact ih acc isAbs hsegs2 hacc s hs
      · rw [if_neg h1] at hs
        by_cases h2 : seg = ['.', '.']
        · rw [if_pos h2] at hs
          rcases acc with _ | ⟨top, below⟩
          · cases isAbs
            · replace hs : s ∈ normSegs false [seg] rest := hs
              refine ih [seg] false hsegs2 ?_ s hs
              intro u hu
              rcases List.mem_cons.1 hu with h | h
              · subst h
                refine ⟨?_, hseg⟩
                rw [h2]
                decide
              · exact absurd h (List.not_mem_nil u)
            · replace hs : s ∈ normSegs true [] rest := hs
              exact ih [] true hsegs2 (by simp) s hs
          · replace hs : s ∈ (if top = ['.', '.'] then
                normSegs isAbs (seg :: top :: below) rest
              else normSegs isAbs below rest) := hs
            by_cases h3 : top = ['.', '.']
            · rw [if_pos h3] at hs
              refine ih (seg :: top :: below) isAbs hsegs2 ?_ s hs
              intro u hu
              rcases List.mem_cons.1 hu with h | h
              · subst h
                refine ⟨?_, hseg⟩
                rw [h2]
                decide
              · exact hacc u h
            · rw [if_neg h3] at hs
              exact ih below isAbs hsegs2
                (fun u hu => hacc u (List.mem_cons_of_mem _ hu)) s hs
        · rw [if_neg h2] at hs
          refine ih (seg :: acc) isAbs hsegs2 ?_ s hs
          intro u hu
          rcases List.mem_cons.1 hu with h | h
          · subst h
            exact ⟨fun hcon => h1 (Or.inl hcon), hseg⟩
          · exact hacc u h

theorem joinSegs_wf :
    ∀ (segs : List (List Char)), (∀ s ∈ segs, s ≠ [] ∧ '/' ∉ s) →
      joinSegs segs = [] ∨
        ∃ c t, joinSegs segs = c :: t ∧ c ≠ '/' := by
  intro segs
  induction segs with
  | nil => intro _; exact Or.inl rfl
  | cons s rest ih =>
      intro h
      obtain ⟨hne, hslash⟩ := h s (List.mem_cons_self s rest)
      rcases hs : s with _ | ⟨c, t⟩
      · exact absurd hs hne
      · have hc : c ≠ '/' := by
          intro hcon
          exact hslash (by rw [hs, hcon]; exact List.Mem.head _)
        rcases rest with _ | ⟨s2, rest2⟩
        · exact Or.inr ⟨c, t, rfl, hc⟩
        · exact Or.inr ⟨c, t ++ '/' :: joinSegs (s2 :: rest2), rfl, hc⟩

theorem normalizeChars_no_dslash (cs : List Char) :
    ∀ t, normalizeChars cs ≠ '/' :: '/' :: t := by
  intro t hcon
  unfold normalizeChars at hcon
  cases hb : isAbsChars cs
  · rw [hb, if_neg (by decide)] at hcon
    rcases joinSegs_wf (normSegs false [] (splitOnSlash cs))
        (normSegs_wf _ [] false (splitOnSlash_no_slash cs) (by simp)) with hj | ⟨c, t2, hj, hc⟩
    · rw [hj] at hcon
      have h2 : (['.'] : List Char) = '/' :: '/' :: t := hcon
      exact absurd (List.cons.inj h2).1 (by decide)
    · rw [hj] at hcon
      have h2 : c :: t2 = '/' :: '/' :: t := hcon
      exact hc (List.cons.inj h2).1
  · rw [hb, if_pos rfl] at hcon
    have h2 := (List.cons.inj hcon).2
    rcases joinSegs_wf (normSegs true [] (splitOnSlash cs))
        (normSegs_wf _ [] true (splitOnSlash_no_slash cs) (by simp)) with hj | ⟨c, t2, hj, hc⟩
    · rw [hj] at h2
      exact absurd h2 (by simp)
    · rw [hj] at h2
      exact hc (List.cons.inj h2).1

theorem lowerChar_toNat_of_range {c : Char} (h65 : 65 ≤ c.toNat) (h90 : c.toNat ≤ 90) :
    (Char.ofNat (c.toNat + 32)).toNat = c.toNat + 32 := by
  have hvalid : (c.toNat + 32).isValidChar := Or.inl (by omega)
  rw [Char.ofNat, dif_pos hvalid]
  rfl

theorem lowerChar_eq_slash {c : Char} (h : lowerChar c = '/') : c = '/' := by
  unfold lowerChar at h
  split_ifs at h with hrange
  · exfalso
    have h2 := congrArg Char.toNat h
    rw [lowerChar_toNat_of_range hrange.1 hrange.2] at h2
    have h47 : ('/' : Char).toNat = 47 := rfl
    omega
  · exact h

theorem map_lowerChar_no_dslash {cs : List Char} (h : ∀ t, cs ≠ '/' :: '/' :: t) :
    ∀ t, cs.map lowerChar ≠ '/' :: '/' :: t := by
  intro t hcon
  rcases cs with _ | ⟨a, rest⟩
  · exact absurd hcon (by simp)
  · rcases rest with _ | ⟨b, rest2⟩
    · exact absurd hcon (by simp)
    · simp only [List.map_cons, List.cons.injEq] at hcon
      obtain ⟨ha, hb, _⟩ := hcon
      exact h rest2 (by rw [lowerChar_eq_slash ha, lowerChar_eq_slash hb])

theorem lower_pathResolve_no_dslash (cwd p : String) :
    ∀ t, (jsToLower (pathResolve cwd p)).data ≠ '/' :: '/' :: t := by
  unfold pathResolve
  split_ifs
  · exact fun t => map_lowerChar_no_dslash (normalizeChars_no_dslash p.data) t
  · exact fun t =>
      map_lowerChar_no_dslash (normalizeChars_no_dslash (cwd.data ++ '/' :: p.data)) t

theorem jsStartsWith_dslash {s : String}
    (h : ∀ t, s.data ≠ '/' :: '/' :: t) : jsStartsWith s "//" = false := by
  cases hb : jsStartsWith s "//"
  · rfl
  · exfalso
    unfold jsStartsWith at hb
    obtain ⟨t, ht⟩ := List.isPrefixOf_iff_prefix.1 hb
    exact h t (by rw [← ht]; rfl)

/-- The validation outcome with the non-absolute guard discharged: the
deny-list test in closed form. -/
theorem validateGlobalPath_eq (env : SysEnv) (p : String) (hp : isAbsolute p = true) :
    validateGlobalPath env p =
      (if FORBIDDEN_PATHS.any (fun forbidden =>
          (jsToLower (pathResolve env.cwd p) == jsToLower (pathResolve env.cwd forbidden)) ||
          jsStartsWith (jsToLower (pathResolve env.cwd p))
            (jsToLower (pathResolve env.cwd forbidden) ++ "/")) = true then
        Except.error PathError.securityError
      else Except.ok ()) := by
  unfold validateGlobalPath
  rw [hp, if_neg (by decide)]

/-- C3 as stated fails on the code: the filesystem root is on the
deny-list and every absolute path is nested strictly beneath it, yet a
path under the home directory passes validation, because the root entry
extended by the separator is the doubled separator, which no normalized
path starts with. -/
theorem deny_list_cex : ¬ claimC3Prop := by
  intro h
  have h2 := (h envPlain "/home/u/.rmcp-tools" rfl).1
  have hunder : underClaimDenyList (pathResolve envPlain.cwd "/home/u/.rmcp-tools") :=
    ⟨"/", List.Mem.head _, Or.inr ⟨by decide, by decide⟩⟩
  have h3 := h2 hunder
  have hok : validateGlobalPath envPlain "/home/u/.rmcp-tools" = .ok () := rfl
  rw [hok] at h3
  exact Except.noConfusion h3

/-- C3 amended: for every absolute input, validation raises SecurityError
exactly when the case-folded resolved path equals the case-folded
resolution of a deny-list entry, or extends such an entry other than the
filesystem root across a separator (nesting beneath the root alone never
matches, since normalized paths contain no doubled separator, and all
comparisons are case-insensitive); the not-absolute ConfigError is never
raised for an absolute input. -/
theorem deny_list_amended (env : SysEnv) (p : String) (hp : isAbsolute p = true) :
    (validateGlobalPath env p = .error .securityError ↔
      onCodeDenyList env (pathResolve env.cwd p)) ∧
    validateGlobalPath env p ≠ .error .configError := by
  rw [validateGlobalPath_eq env p hp]
  by_cases hc : FORBIDDEN_PATHS.any (fun forbidden =>
      (jsToLower (pathResolve env.cwd p) == jsToLower (pathResolve env.cwd forbidden)) ||
      jsStartsWith (jsToLower (pathResolve env.cwd p))
        (jsToLower (pathResolve env.cwd forbidden) ++ "/")) = true
  · rw [if_pos hc]
    refine ⟨iff_of_true rfl ?_, fun hcon => by
      injection hcon with hcon2
      exact PathError.noConfusion hcon2⟩
    obtain ⟨f, hf, hcond⟩ := List.any_eq_true.1 hc
    have hcond2 : ((jsToLower (pathResolve env.cwd p) ==
        jsToLower (pathResolve env.cwd f)) ||
        jsStartsWith (jsToLower (pathResolve env.cwd p))
          (jsToLower (pathResolve env.cwd f) ++ "/")) = true := hcond
    rw [Bool.or_eq_true] at hcond2
    rcases hcond2 with heq | hsw
    · exact ⟨f, hf, Or.inl (eq_of_beq heq)⟩
    · refine ⟨f, hf, Or.inr ⟨?_, hsw⟩⟩
      intro hcon
      rw [hcon, show ("/" : String) ++ "/" = "//" from rfl,
        jsStartsWith_dslash (lower_pathResolve_no_dslash env.cwd p)] at hsw
      exact absurd hsw (by decide)
  · rw [if_neg hc]
    refine ⟨iff_of_false (fun hcon => Except.noConfusion hcon) ?_,
      fun hcon => Except.noConfusion hcon⟩
    rintro ⟨f, hf, hor⟩
    refine hc (List.any_eq_true.2 ⟨f, hf, ?_⟩)
    show ((jsToLower (pathResolve env.cwd p) == jsToLower (pathResolve env.cwd f)) ||
      jsStartsWith (jsToLower (pathResolve env.cwd p))
        (jsToLower (pathResolve env.cwd f) ++ "/")) = true
    rw [Bool.or_eq_true]
    rcases hor with heq | ⟨_, hsw⟩
    · exact Or.inl (beq_of_eq heq)
    · exact Or.inr hsw

/-- Witness for the amended C3 at the deny-listed directory /bin. -/
theorem deny_list_amended_witness :
    (validateGlobalPath envPlain "/bin" = .error .securityError ↔
      onCodeDenyList envPlain (pathResolve envPlain.cwd "/bin")) ∧
    validateGlobalPath envPlain "/bin" ≠ .error .configError :=
  deny_list_amended envPlain "/bin" rfl

end Rmcp
